import Mathlib

/- Verification development for the step tracking application.

   The embedding below follows the single C++ source file: the data classes
   Individual and Group, the ConceptualBPlusTree container (a sorted vector
   with binary search), and the StepTrackerApp operations built on top of it.
   Machine integers of the source are modelled as Int; the two container
   instantiations key Individuals by their Int id and Groups by their String
   id, both ordered by the natural (std::less) order of the key type.
   Console output and CSV persistence are external collaborators and carry no
   state relevant to the claims, so they are omitted. -/

namespace StepTracker

/- Data model: class Individual of the source. The constructor starts every
   Individual ungrouped (current_group_id empty) with zero points. -/

structure Individual where
  id : Int
  name : String
  age : Int
  daily_step_goal : Int
  weekly_step_count : List Int
  current_group_id : String
  points : Int

deriving instance DecidableEq for Individual

/- Data model: class Group of the source. -/

structure Group where
  group_id : String
  group_name : String
  member_ids : List Int
  weekly_group_goal : Int
  total_weekly_steps : Int

deriving instance DecidableEq for Group

def Group.MAX_MEMBERS : Nat := 5

/- The Group constructor sorts member_ids and erases consecutive duplicates
   (std::sort followed by std::unique). uniqueAdj keeps one element of every
   run of equal adjacent elements; since the elements of a run are equal
   values, keeping the last of a run yields the same list as std::unique
   keeping the first, and this phrasing is structurally recursive. -/

def uniqueAdj : List Int → List Int
  | [] => []
  | [a] => [a]
  | a :: b :: rest => if a = b then uniqueAdj (b :: rest) else a :: uniqueAdj (b :: rest)

def mkGroupMembers (member_ids : List Int) : List Int :=
  uniqueAdj (List.insertionSort (· ≤ ·) member_ids)

def mkGroup (group_id group_name : String) (member_ids : List Int)
    (weekly_group_goal : Int) : Group :=
  { group_id := group_id, group_name := group_name,
    member_ids := mkGroupMembers member_ids,
    weekly_group_goal := weekly_group_goal, total_weekly_steps := 0 }

/- ConceptualBPlusTree<T, K>: a vector of T kept sorted by an extracted key,
   with binary search (std::lower_bound) for insert and search. On data
   sorted by the key, lower_bound returns the first element whose key is not
   less than the probe key; the linear recursions below compute exactly that
   position, so they coincide with the source on every sorted store. Both
   instantiations in the source use the default std::less comparator of the
   key type, modelled by the order of a LinearOrder. -/

section OrderedStore

variable {T : Type} {K : Type} [LinearOrder K]

/- insert: walk to the lower bound of the item key; if the element there is
   comparator-equal to the item key, do not insert (silent no-op), else
   insert the item at that position. -/
def treeInsert (key : T → K) (item : T) : List T → List T
  | [] => [item]
  | x :: xs =>
    if key x < key item then x :: treeInsert key item xs
    else if key item < key x then item :: x :: xs
    else x :: xs

/- search: inspect the element at the lower bound of the probe key; return it
   when it is comparator-equal to the probe key, nothing otherwise. -/
def treeSearch (key : T → K) (k : K) : List T → Option T
  | [] => none
  | x :: xs =>
    if key x < k then treeSearch key k xs
    else if k < key x then none
    else some x

/- remove: erase-remove over the whole vector with key_extractor(obj) == key;
   every element with that key is removed, and the Bool reports whether any
   element was removed. -/
def treeRemove (key : T → K) (k : K) (data : List T) : List T × Bool :=
  (data.filter fun x => decide (key x ≠ k), data.any fun x => decide (key x = k))

/- The sortedness invariant the container maintains: strictly increasing
   extracted keys (duplicates are never inserted). -/
def StoreSorted (key : T → K) (l : List T) : Prop :=
  l.Pairwise fun a b => key a < key b

instance storeSortedDecidable (key : T → K) (l : List T) :
    Decidable (StoreSorted key l) :=
  List.instDecidablePairwise l

end OrderedStore

/- The group store is keyed by group_id. std::less on std::string compares
   the character sequence of the string, modelled as the lexicographic order
   on the list of characters, which unlike the opaque String order is fully
   computable here. -/
def groupKey (g : Group) : List Char :=
  g.group_id.data

/- StepTrackerApp: the two stores. Mutation through pointers returned by
   search is modelled as a functional update of the uniquely keyed record. -/

structure StepTrackerApp where
  individuals : List Individual
  groups : List Group

deriving instance DecidableEq for StepTrackerApp

namespace StepTrackerApp

/- Assign current_group_id := gid to every individual whose id occurs in
   mids: the source loops over mids, searches each id and writes through the
   returned pointer; ids are unique in the store, so this equals one pass
   over the store. Used by create_group, delete_group (with "") and
   merge_groups. -/
def setGroupIds (mids : List Int) (gid : String) (inds : List Individual) : List Individual :=
  inds.map fun ind =>
    if ind.id ∈ mids then { ind with current_group_id := gid } else ind

/- add_person: fails when the id is already present, else inserts a fresh
   ungrouped individual. -/
def add_person (s : StepTrackerApp) (id : Int) (name : String) (age daily_step_goal : Int)
    (weekly_step_count : List Int) : StepTrackerApp × Bool :=
  match treeSearch Individual.id id s.individuals with
  | some _ => (s, false)
  | none =>
    let newInd : Individual :=
      { id := id, name := name, age := age, daily_step_goal := daily_step_goal,
        weekly_step_count := weekly_step_count, current_group_id := "", points := 0 }
    ({ s with individuals := treeInsert Individual.id newInd s.individuals }, true)

/- Error kinds of create_group; each corresponds to one early-return branch
   of the source. -/
inductive CreateErr
  | alreadyExists
  | tooManyMembers
  | noValidMembers

deriving instance DecidableEq for CreateErr

/- create_group: duplicate-id check, then the raw-count cap check, then the
   candidate filter (must exist and be ungrouped; the source pushes every
   surviving occurrence and the Group constructor deduplicates). -/
def create_group (s : StepTrackerApp) (group_id group_name : String)
    (member_ids : List Int) (weekly_group_goal : Int) : StepTrackerApp × Option CreateErr :=
  match treeSearch groupKey group_id.data s.groups with
  | some _ => (s, some CreateErr.alreadyExists)
  | none =>
    if Group.MAX_MEMBERS < member_ids.length then (s, some CreateErr.tooManyMembers)
    else
      let actual_member_ids := member_ids.filter fun mid =>
        match treeSearch Individual.id mid s.individuals with
        | none => false
        | some ind => decide (ind.current_group_id = "")
      if actual_member_ids.isEmpty then (s, some CreateErr.noValidMembers)
      else
        ({ individuals := setGroupIds actual_member_ids group_id s.individuals,
           groups := treeInsert groupKey
             (mkGroup group_id group_name actual_member_ids weekly_group_goal)
             s.groups }, none)

/- delete_individual: if the individual is grouped, its id is erased from the
   member list of the owning group, then the individual record is removed. -/
def delete_individual (s : StepTrackerApp) (individual_id : Int) : StepTrackerApp × Bool :=
  match treeSearch Individual.id individual_id s.individuals with
  | none => (s, false)
  | some ind =>
    let groups' :=
      if ind.current_group_id ≠ "" then
        s.groups.map fun g =>
          if g.group_id = ind.current_group_id then
            { g with member_ids := g.member_ids.filter fun m => decide (m ≠ individual_id) }
          else g
      else s.groups
    let r := treeRemove Individual.id individual_id s.individuals
    ({ individuals := r.1, groups := groups' }, r.2)

/- delete_group: clear current_group_id on every member, then remove the
   group record. -/
def delete_group (s : StepTrackerApp) (group_id : String) : StepTrackerApp × Bool :=
  match treeSearch groupKey group_id.data s.groups with
  | none => (s, false)
  | some g =>
    let inds' := setGroupIds g.member_ids "" s.individuals
    let r := treeRemove groupKey group_id.data s.groups
    ({ individuals := inds', groups := r.1 }, r.2)

/- Error kinds of merge_groups; each corresponds to one early-return branch
   of the source (the two delete failures print distinct messages). -/
inductive MergeErr
  | group1NotFound
  | group2NotFound
  | tooManyMembers
  | deleteFailed1
  | deleteFailed2

deriving instance DecidableEq for MergeErr

/- merge_groups: both groups must exist; the member union is built through a
   std::set (sorted unique elements, i.e. mkGroupMembers of the
   concatenation); the cap is checked on the union before any deletion; then
   group 1 and group 2 are deleted in that order and a new group reusing
   group_id_1 is inserted, regrouping every unioned member. -/
def merge_groups (s : StepTrackerApp) (group_id_1 group_id_2 new_group_name : String)
    (new_weekly_goal : Int) : StepTrackerApp × Option MergeErr :=
  match treeSearch groupKey group_id_1.data s.groups with
  | none => (s, some MergeErr.group1NotFound)
  | some group1 =>
    match treeSearch groupKey group_id_2.data s.groups with
    | none => (s, some MergeErr.group2NotFound)
    | some group2 =>
      let merged_member_ids := mkGroupMembers (group1.member_ids ++ group2.member_ids)
      if Group.MAX_MEMBERS < merged_member_ids.length then (s, some MergeErr.tooManyMembers)
      else
        let r1 := delete_group s group_id_1
        if r1.2 then
          let r2 := delete_group r1.1 group_id_2
          if r2.2 then
            ({ individuals := setGroupIds merged_member_ids group_id_1 r2.1.individuals,
               groups := treeInsert groupKey
                 (mkGroup group_id_1 new_group_name merged_member_ids new_weekly_goal)
                 r2.1.groups }, none)
          else (r2.1, some MergeErr.deleteFailed2)
        else (r1.1, some MergeErr.deleteFailed1)

/- Ranking: the last entry of weekly_step_count is the current day. -/
def lastSteps (ind : Individual) : Int :=
  ind.weekly_step_count.getLastD 0

/- Eligibility filter of get_top_3: skip individuals with no step data, keep
   those whose last-day steps reach their daily goal. -/
def isEligible (ind : Individual) : Bool :=
  !ind.weekly_step_count.isEmpty && decide (ind.daily_step_goal ≤ lastSteps ind)

def eligibleList (inds : List Individual) : List Individual :=
  inds.filter isEligible

/- get_top_3 sorts the eligible individuals with std::sort under the
   comparator (last-day steps of a) > (last-day steps of b) and returns the
   first three. std::sort guarantees only a permutation that is sorted for
   the comparator; the relative order of tied elements is unspecified, so the
   result is modelled as a relation: out is a possible return value of
   get_top_3 exactly when it is the 3-prefix of some permutation of the
   eligible list that is sorted by last-day steps descending. -/
def sortedByStepsDesc (l : List Individual) : Prop :=
  l.Pairwise fun a b => lastSteps b ≤ lastSteps a

instance sortedByStepsDescDecidable (l : List Individual) :
    Decidable (sortedByStepsDesc l) :=
  List.instDecidablePairwise l

def get_top_3_rel (s : StepTrackerApp) (out : List Individual) : Prop :=
  ∃ p, (eligibleList s.individuals).Perm p ∧ sortedByStepsDesc p ∧ out = p.take 3

/- Sum of a weekly step list; the source skips individuals with empty data,
   which contribute 0 to the fold either way. -/
def individualWeeklySum (ind : Individual) : Int :=
  ind.weekly_step_count.foldl (· + ·) 0

/- Total steps of a group: sum over member ids of the weekly sum of the
   found individual; missing ids contribute nothing. -/
def groupTotalSteps (s : StepTrackerApp) (g : Group) : Int :=
  g.member_ids.foldl (fun acc mid =>
    match treeSearch Individual.id mid s.individuals with
    | some ind => acc + individualWeeklySum ind
    | none => acc) 0

/- check_group_achievement: computes the total for the group, stores it into
   the total_weekly_steps field of the group record, and reports whether the
   weekly goal is reached. -/
def check_group_achievement (s : StepTrackerApp) (group_id : String) : StepTrackerApp × Bool :=
  match treeSearch groupKey group_id.data s.groups with
  | none => (s, false)
  | some g =>
    let total := groupTotalSteps s g
    ({ s with groups := s.groups.map fun g2 =>
        if g2.group_id = group_id then { g2 with total_weekly_steps := total } else g2 },
     decide (g.weekly_group_goal ≤ total))

/- generate_leader_board reads the stores and prints ranks; it performs no
   field assignment, so it is modelled as the pure list of id/total pairs it
   ranks (sorted relationally like get_top_3, which no claim needs). -/
def leaderboardTotals (s : StepTrackerApp) : List (String × Int) :=
  s.groups.map fun g => (g.group_id, groupTotalSteps s g)

/- Rank to points map of check_individual_rewards: {0 -> 100, 1 -> 75,
   2 -> 50}; ranks beyond the list never occur since at most 3 are returned
   (operator[] would default to 0). -/
def rewardForRank (i : Nat) : Int :=
  if i = 0 then 100 else if i = 1 then 75 else if i = 2 then 50 else 0

/- check_individual_rewards, given the top-3 list t3 produced by get_top_3
   during the call: when the individual exists and occurs in t3 at first
   index i, rewardForRank i is added to its points; otherwise nothing
   changes. -/
def check_individual_rewards_given (s : StepTrackerApp) (individual_id : Int)
    (t3 : List Individual) : StepTrackerApp :=
  match treeSearch Individual.id individual_id s.individuals with
  | none => s
  | some _ =>
    match t3.findIdx? (fun x => decide (x.id = individual_id)) with
    | none => s
    | some i =>
      { s with individuals := s.individuals.map fun ind =>
          if ind.id = individual_id then { ind with points := ind.points + rewardForRank i }
          else ind }

/- The full call: some admissible top-3 list is used. -/
def check_individual_rewards_rel (s : StepTrackerApp) (individual_id : Int)
    (s' : StepTrackerApp) : Prop :=
  ∃ t3, get_top_3_rel s t3 ∧ s' = check_individual_rewards_given s individual_id t3

end StepTrackerApp

/- The public mutating operations, as an action type, and the iterated
   application of a call sequence; the Bool or error component of each call
   is what the source returns to its caller and does not feed back into the
   state. -/

inductive Op
  | addPerson (id : Int) (name : String) (age daily_step_goal : Int) (weekly : List Int)
  | createGroup (group_id group_name : String) (member_ids : List Int) (weekly_group_goal : Int)
  | deleteIndividual (individual_id : Int)
  | deleteGroup (group_id : String)
  | mergeGroups (group_id_1 group_id_2 new_group_name : String) (new_weekly_goal : Int)

def applyOp (s : StepTrackerApp) : Op → StepTrackerApp
  | Op.addPerson i n a g w => (s.add_person i n a g w).1
  | Op.createGroup gid gn m w => (s.create_group gid gn m w).1
  | Op.deleteIndividual i => (s.delete_individual i).1
  | Op.deleteGroup gid => (s.delete_group gid).1
  | Op.mergeGroups g1 g2 n w => (s.merge_groups g1 g2 n w).1

def run (s : StepTrackerApp) (ops : List Op) : StepTrackerApp :=
  ops.foldl applyOp s

/- Invariant I1 of the spec: every member id of every stored group names an
   existing individual whose current_group_id is that group. -/
def groupsLinkIndividuals (s : StepTrackerApp) : Prop :=
  ∀ g ∈ s.groups, ∀ m ∈ g.member_ids,
    ∃ ind ∈ s.individuals, ind.id = m ∧ ind.current_group_id = g.group_id

instance groupsLinkIndividualsDecidable (s : StepTrackerApp) :
    Decidable (groupsLinkIndividuals s) :=
  List.decidableBAll _ s.groups

/- Invariant I2 of the spec: every individual with a non-empty
   current_group_id names an existing group that lists it as a member. -/
def individualsLinkGroups (s : StepTrackerApp) : Prop :=
  ∀ ind ∈ s.individuals, ind.current_group_id ≠ "" →
    ∃ g ∈ s.groups, g.group_id = ind.current_group_id ∧ ind.id ∈ g.member_ids

instance individualsLinkGroupsDecidable (s : StepTrackerApp) :
    Decidable (individualsLinkGroups s) :=
  List.decidableBAll _ s.individuals

/- Consistency of a state: both stores sorted by their keys (the container
   invariant), no group keyed by the empty string (the encoding of
   "ungrouped" in current_group_id), deduplicated member lists within the
   cap, and the two membership links I1 and I2. -/
structure Consistent (s : StepTrackerApp) : Prop where
  sortedInds : StoreSorted Individual.id s.individuals
  sortedGrps : StoreSorted groupKey s.groups
  gidsNonempty : ∀ g ∈ s.groups, g.group_id ≠ ""
  membersNodup : ∀ g ∈ s.groups, g.member_ids.Nodup
  membersLen : ∀ g ∈ s.groups, g.member_ids.length ≤ Group.MAX_MEMBERS
  link1 : groupsLinkIndividuals s
  link2 : individualsLinkGroups s

/- An operation sequence that never asks create_group for a group keyed by
   the empty string (merge_groups can only reuse an existing group id). -/
def Op.usesNonemptyGroupId : Op → Prop
  | Op.createGroup gid _ _ _ => gid ≠ ""
  | _ => True

instance usesNonemptyGroupIdDecidable : (op : Op) → Decidable op.usesNonemptyGroupId
  | Op.addPerson _ _ _ _ _ => isTrue trivial
  | Op.createGroup gid _ _ _ => inferInstanceAs (Decidable (gid ≠ ""))
  | Op.deleteIndividual _ => isTrue trivial
  | Op.deleteGroup _ => isTrue trivial
  | Op.mergeGroups _ _ _ _ => isTrue trivial

/- ------------------------------------------------------------------ -/
/- Lemmas about the member list normalisation of the Group constructor. -/

theorem mem_uniqueAdj : ∀ (l : List Int) (x : Int), x ∈ uniqueAdj l ↔ x ∈ l
  | [], x => by simp [uniqueAdj]
  | [a], x => by simp [uniqueAdj]
  | a :: b :: rest, x => by
    rw [uniqueAdj]
    by_cases h : a = b
    · rw [if_pos h, mem_uniqueAdj (b :: rest) x]
      simp [h, List.mem_cons]
    · rw [if_neg h]
      simp [List.mem_cons, mem_uniqueAdj (b :: rest) x]

theorem uniqueAdj_pairwise_lt : ∀ (l : List Int),
    l.Pairwise (· ≤ ·) → (uniqueAdj l).Pairwise (· < ·)
  | [], _ => by simp [uniqueAdj]
  | [a], _ => by simp [uniqueAdj]
  | a :: b :: rest, h => by
    rw [List.pairwise_cons] at h
    rw [uniqueAdj]
    by_cases hab : a = b
    · rw [if_pos hab]
      exact uniqueAdj_pairwise_lt (b :: rest) h.2
    · rw [if_neg hab, List.pairwise_cons]
      refine ⟨?_, uniqueAdj_pairwise_lt (b :: rest) h.2⟩
      intro x hx
      rw [mem_uniqueAdj] at hx
      rcases List.mem_cons.mp hx with rfl | hx'
      · exact lt_of_le_of_ne (h.1 _ hx) hab
      · have hb : a < b := lt_of_le_of_ne (h.1 b (List.mem_cons_self b rest)) hab
        exact lt_of_lt_of_le hb ((List.pairwise_cons.mp h.2).1 x hx')

theorem uniqueAdj_eq_self : ∀ (l : List Int), l.Pairwise (· < ·) → uniqueAdj l = l
  | [], _ => rfl
  | [_], _ => rfl
  | a :: b :: rest, h => by
    have hab : a ≠ b := ne_of_lt ((List.pairwise_cons.mp h).1 b (List.mem_cons_self b rest))
    rw [uniqueAdj, if_neg hab, uniqueAdj_eq_self (b :: rest) (List.pairwise_cons.mp h).2]

theorem mem_mkGroupMembers (l : List Int) (x : Int) : x ∈ mkGroupMembers l ↔ x ∈ l := by
  rw [mkGroupMembers, mem_uniqueAdj]
  exact List.mem_insertionSort _

theorem mkGroupMembers_pairwise (l : List Int) : (mkGroupMembers l).Pairwise (· < ·) :=
  uniqueAdj_pairwise_lt _ (List.sorted_insertionSort _ l)

theorem mkGroupMembers_nodup (l : List Int) : (mkGroupMembers l).Nodup :=
  (mkGroupMembers_pairwise l).imp ne_of_lt

theorem length_le_of_nodup_subset {l₁ l₂ : List Int} (h₁ : l₁.Nodup)
    (h₂ : ∀ x ∈ l₁, x ∈ l₂) : l₁.length ≤ l₂.length := by
  calc l₁.length = l₁.toFinset.card := (List.toFinset_card_of_nodup h₁).symm
    _ ≤ l₂.toFinset.card :=
        Finset.card_le_card fun x hx => List.mem_toFinset.mpr (h₂ x (List.mem_toFinset.mp hx))
    _ ≤ l₂.length := l₂.toFinset_card_le

theorem mkGroupMembers_length_le (l : List Int) : (mkGroupMembers l).length ≤ l.length :=
  length_le_of_nodup_subset (mkGroupMembers_nodup l) fun x hx => (mem_mkGroupMembers l x).mp hx

theorem mkGroupMembers_idem (l : List Int) :
    mkGroupMembers (mkGroupMembers l) = mkGroupMembers l := by
  show uniqueAdj (List.insertionSort (· ≤ ·) (mkGroupMembers l)) = mkGroupMembers l
  have h := mkGroupMembers_pairwise l
  have hs : List.Sorted (· ≤ ·) (mkGroupMembers l) := h.imp le_of_lt
  rw [hs.insertionSort_eq]
  exact uniqueAdj_eq_self _ h

/- ------------------------------------------------------------------ -/
/- Lemmas about the sorted store. -/

section OrderedStoreLemmas

variable {T : Type} {K : Type} [LinearOrder K] {key : T → K}

theorem mem_of_mem_treeInsert {item y : T} :
    ∀ (l : List T), y ∈ treeInsert key item l → y = item ∨ y ∈ l
  | [], h => by simpa [treeInsert] using h
  | x :: xs, h => by
    rw [treeInsert] at h
    split_ifs at h with h1 h2
    · rcases List.mem_cons.mp h with rfl | h'
      · exact Or.inr (List.mem_cons_self _ _)
      · rcases mem_of_mem_treeInsert xs h' with h'' | h''
        · exact Or.inl h''
        · exact Or.inr (List.mem_cons_of_mem _ h'')
    · rcases List.mem_cons.mp h with rfl | h'
      · exact Or.inl rfl
      · exact Or.inr h'
    · exact Or.inr h

theorem subset_treeInsert (item : T) :
    ∀ (l : List T), ∀ y ∈ l, y ∈ treeInsert key item l
  | x :: xs, y, hy => by
    rw [treeInsert]
    split_ifs with h1 h2
    · rcases List.mem_cons.mp hy with rfl | h'
      · exact List.mem_cons_self _ _
      · exact List.mem_cons_of_mem _ (subset_treeInsert item xs y h')
    · exact List.mem_cons_of_mem _ hy
    · exact hy

theorem treeInsert_split {item : T} :
    ∀ (l : List T), (∀ x ∈ l, key x ≠ key item) →
      ∃ l₁ l₂, l = l₁ ++ l₂ ∧ treeInsert key item l = l₁ ++ item :: l₂
  | [], _ => ⟨[], [], rfl, rfl⟩
  | x :: xs, hf => by
    rw [treeInsert]
    by_cases h1 : key x < key item
    · rw [if_pos h1]
      obtain ⟨l₁, l₂, he, hr⟩ :=
        treeInsert_split xs fun z hz => hf z (List.mem_cons_of_mem _ hz)
      exact ⟨x :: l₁, l₂, by rw [List.cons_append, ← he], by rw [List.cons_append, ← hr]⟩
    · by_cases h2 : key item < key x
      · rw [if_neg h1, if_pos h2]
        exact ⟨[], x :: xs, rfl, rfl⟩
      · exact absurd (le_antisymm (not_lt.mp h2) (not_lt.mp h1))
          (hf x (List.mem_cons_self x xs))

theorem self_mem_treeInsert {item : T} (l : List T)
    (hf : ∀ x ∈ l, key x ≠ key item) : item ∈ treeInsert key item l := by
  obtain ⟨l₁, l₂, _, hr⟩ := treeInsert_split l hf
  rw [hr]
  exact List.mem_append.mpr (Or.inr (List.mem_cons_self _ _))

theorem mem_treeInsert_fresh {item y : T} (l : List T)
    (hf : ∀ x ∈ l, key x ≠ key item) :
    y ∈ treeInsert key item l ↔ y = item ∨ y ∈ l := by
  constructor
  · exact mem_of_mem_treeInsert l
  · rintro (rfl | h)
    · exact self_mem_treeInsert l hf
    · exact subset_treeInsert item l y h

theorem StoreSorted_treeInsert {item : T} :
    ∀ (l : List T), StoreSorted key l → (∀ x ∈ l, key x ≠ key item) →
      StoreSorted key (treeInsert key item l)
  | [], _, _ => by simp [treeInsert, StoreSorted]
  | x :: xs, hs, hf => by
    rw [StoreSorted, List.pairwise_cons] at hs
    rw [treeInsert]
    by_cases h1 : key x < key item
    · rw [if_pos h1]
      rw [StoreSorted, List.pairwise_cons]
      refine ⟨?_, StoreSorted_treeInsert xs hs.2 fun z hz => hf z (List.mem_cons_of_mem _ hz)⟩
      intro y hy
      rcases mem_of_mem_treeInsert xs hy with rfl | hy'
      · exact h1
      · exact hs.1 y hy'
    · by_cases h2 : key item < key x
      · rw [if_neg h1, if_pos h2]
        rw [StoreSorted, List.pairwise_cons]
        refine ⟨?_, List.pairwise_cons.mpr hs⟩
        intro y hy
        rcases List.mem_cons.mp hy with rfl | hy'
        · exact h2
        · exact lt_trans h2 (hs.1 y hy')
      · exact absurd (le_antisymm (not_lt.mp h2) (not_lt.mp h1))
          (hf x (List.mem_cons_self x xs))

theorem treeSearch_eq_some_mem :
    ∀ (l : List T) {k : K} {x : T}, StoreSorted key l → treeSearch key k l = some x →
      x ∈ l ∧ key x = k
  | [], _, _, _, h => by simp [treeSearch] at h
  | y :: ys, k, x, hs, h => by
    rw [StoreSorted, List.pairwise_cons] at hs
    rw [treeSearch] at h
    split_ifs at h with h1 h2
    · obtain ⟨hm, hk⟩ := treeSearch_eq_some_mem ys hs.2 h
      exact ⟨List.mem_cons_of_mem _ hm, hk⟩
    · rw [Option.some_inj] at h
      cases h
      exact ⟨List.mem_cons_self _ _, le_antisymm (not_lt.mp h2) (not_lt.mp h1)⟩

theorem treeSearch_eq_some_of_mem :
    ∀ (l : List T) {x : T}, StoreSorted key l → x ∈ l → treeSearch key (key x) l = some x
  | y :: ys, x, hs, hm => by
    rw [StoreSorted, List.pairwise_cons] at hs
    rw [treeSearch]
    rcases List.mem_cons.mp hm with rfl | h'
    · rw [if_neg (lt_irrefl _), if_neg (lt_irrefl _)]
    · rw [if_pos (hs.1 x h')]
      exact treeSearch_eq_some_of_mem ys hs.2 h'

theorem treeSearch_eq_some_of_mem_key {l : List T} {x : T} {k : K}
    (hs : StoreSorted key l) (hx : x ∈ l) (hk : key x = k) :
    treeSearch key k l = some x := by
  subst hk
  exact treeSearch_eq_some_of_mem l hs hx

theorem treeSearch_eq_none_of_forall :
    ∀ (l : List T) (k : K), (∀ x ∈ l, key x ≠ k) → treeSearch key k l = none
  | [], _, _ => rfl
  | y :: ys, k, hf => by
    rw [treeSearch]
    by_cases h1 : key y < k
    · rw [if_pos h1]
      exact treeSearch_eq_none_of_forall ys k fun z hz => hf z (List.mem_cons_of_mem _ hz)
    · by_cases h2 : k < key y
      · rw [if_neg h1, if_pos h2]
      · exact absurd (le_antisymm (not_lt.mp h2) (not_lt.mp h1))
          (hf y (List.mem_cons_self y ys))

theorem treeSearch_eq_none_iff {l : List T} {k : K} (hs : StoreSorted key l) :
    treeSearch key k l = none ↔ ∀ x ∈ l, key x ≠ k := by
  constructor
  · intro h x hx hk
    rw [← hk, treeSearch_eq_some_of_mem l hs hx] at h
    simp at h
  · exact treeSearch_eq_none_of_forall l k

theorem StoreSorted.key_unique :
    ∀ (l : List T), StoreSorted key l → ∀ {a b : T}, a ∈ l → b ∈ l → key a = key b → a = b
  | x :: xs, hs, a, b, ha, hb, hk => by
    rw [StoreSorted, List.pairwise_cons] at hs
    rcases List.mem_cons.mp ha with rfl | ha' <;> rcases List.mem_cons.mp hb with rfl | hb'
    · rfl
    · exact absurd hk (ne_of_lt (hs.1 b hb'))
    · exact absurd hk.symm (ne_of_lt (hs.1 a ha'))
    · exact StoreSorted.key_unique xs hs.2 ha' hb' hk

theorem mem_treeRemove_fst {k : K} {l : List T} {y : T} :
    y ∈ (treeRemove key k l).1 ↔ y ∈ l ∧ key y ≠ k := by
  simp [treeRemove, List.mem_filter]

theorem treeRemove_fst_sorted {k : K} {l : List T} (hs : StoreSorted key l) :
    StoreSorted key (treeRemove key k l).1 :=
  List.Pairwise.sublist (List.filter_sublist l) hs

theorem treeRemove_snd_iff {k : K} {l : List T} :
    (treeRemove key k l).2 = true ↔ ∃ x ∈ l, key x = k := by
  simp [treeRemove, List.any_eq_true]

theorem StoreSorted.map_of_key_eq {f : T → T} (hf : ∀ x, key (f x) = key x)
    {l : List T} (hs : StoreSorted key l) : StoreSorted key (l.map f) := by
  rw [StoreSorted, List.pairwise_map]
  refine hs.imp ?_
  intro a b h
  rw [hf, hf]
  exact h

theorem treeInsert_eq_of_dup {item : T} :
    ∀ (l : List T), StoreSorted key l → (∃ x ∈ l, key x = key item) →
      treeInsert key item l = l
  | [], _, h => absurd h.choose_spec.1 (List.not_mem_nil _)
  | x :: xs, hs, ⟨y, hy, hk⟩ => by
    rw [StoreSorted, List.pairwise_cons] at hs
    rw [treeInsert]
    by_cases h1 : key x < key item
    · rw [if_pos h1]
      rcases List.mem_cons.mp hy with rfl | hy'
      · exact absurd hk (ne_of_lt h1)
      · rw [treeInsert_eq_of_dup xs hs.2 ⟨y, hy', hk⟩]
    · by_cases h2 : key item < key x
      · exfalso
        rcases List.mem_cons.mp hy with rfl | hy'
        · exact absurd hk (ne_of_gt h2)
        · exact absurd hk (ne_of_gt (lt_trans h2 (hs.1 y hy')))
      · rw [if_neg h1, if_neg h2]

end OrderedStoreLemmas

/- ------------------------------------------------------------------ -/
/- Lemmas about the application operations. -/

open StepTrackerApp

theorem mem_setGroupIds {mids : List Int} {gid : String} {inds : List Individual}
    {y : Individual} :
    y ∈ setGroupIds mids gid inds ↔
      ∃ x ∈ inds,
        (if x.id ∈ mids then { x with current_group_id := gid } else x) = y := by
  simp [setGroupIds, List.mem_map]

theorem setGroupIds_sorted {mids : List Int} {gid : String} {inds : List Individual}
    (hs : StoreSorted Individual.id inds) :
    StoreSorted Individual.id (setGroupIds mids gid inds) := by
  rw [setGroupIds]
  refine StoreSorted.map_of_key_eq ?_ hs
  intro x
  by_cases h : x.id ∈ mids <;> simp [h]

theorem string_data_inj {a b : String} (h : a.data = b.data) : a = b := by
  cases a
  cases b
  exact congrArg String.mk h

/- The state delete_group produces when the group is found. -/
theorem delete_group_found {s : StepTrackerApp} {gid : String} {g : Group}
    (hs : StoreSorted groupKey s.groups)
    (hg : treeSearch groupKey gid.data s.groups = some g) :
    s.delete_group gid =
      ({ individuals := setGroupIds g.member_ids "" s.individuals,
         groups := (treeRemove groupKey gid.data s.groups).1 }, true) := by
  obtain ⟨hmem, hkey⟩ := treeSearch_eq_some_mem s.groups hs hg
  have h2 : (treeRemove groupKey gid.data s.groups).2 = true :=
    treeRemove_snd_iff.mpr ⟨g, hmem, hkey⟩
  simp only [StepTrackerApp.delete_group, hg, h2]

theorem delete_group_not_found {s : StepTrackerApp} {gid : String}
    (hg : treeSearch groupKey gid.data s.groups = none) :
    s.delete_group gid = (s, false) := by
  simp only [StepTrackerApp.delete_group, hg]

/- ------------------------------------------------------------------ -/
/- Claim theorems. -/

/-- Claim C9: the OrderedStore insert contract. On a store sorted by the
extracted key: if an element whose key is comparator-equal to the key of the
item (neither less in either direction) is already present, insert returns
the store completely unchanged; otherwise insert places exactly the new item
at its sorted position, preserving the rest of the store and its sorted
order. -/
theorem C9_treeInsert_contract {T K : Type} [LinearOrder K] (key : T → K) (item : T)
    (l : List T) (hs : StoreSorted key l) :
    ((∃ x ∈ l, ¬ key x < key item ∧ ¬ key item < key x) → treeInsert key item l = l) ∧
    ((∀ x ∈ l, key x ≠ key item) →
      (∃ l₁ l₂, l = l₁ ++ l₂ ∧ treeInsert key item l = l₁ ++ item :: l₂) ∧
      StoreSorted key (treeInsert key item l)) := by
  constructor
  · rintro ⟨x, hx, hlt1, hlt2⟩
    exact treeInsert_eq_of_dup l hs ⟨x, hx, le_antisymm (not_lt.mp hlt2) (not_lt.mp hlt1)⟩
  · intro hf
    exact ⟨treeInsert_split l hf, StoreSorted_treeInsert l hs hf⟩

theorem C9_treeInsert_contract_witness :
    (∃ l₁ l₂, ([2, 4] : List Int) = l₁ ++ l₂ ∧
      treeInsert (fun x : Int => x) 3 [2, 4] = l₁ ++ 3 :: l₂) ∧
    StoreSorted (fun x : Int => x) (treeInsert (fun x : Int => x) 3 [2, 4]) :=
  (C9_treeInsert_contract (fun x => x) 3 [2, 4] (by decide)).2 (by decide)

/-- Claim C2: merge cap atomicity. When both groups are found and the
deduplicated union of their member ids has more than MAX_MEMBERS elements,
merge_groups reports TooManyMembers and returns the state completely
unchanged: the cap is checked before any deletion. -/
theorem C2_merge_cap_atomicity (s : StepTrackerApp) (gid1 gid2 name : String)
    (goal : Int) (g1 g2 : Group)
    (h1 : treeSearch groupKey gid1.data s.groups = some g1)
    (h2 : treeSearch groupKey gid2.data s.groups = some g2)
    (hne : gid1 ≠ gid2)
    (hcap : Group.MAX_MEMBERS < (mkGroupMembers (g1.member_ids ++ g2.member_ids)).length) :
    s.merge_groups gid1 gid2 name goal = (s, some MergeErr.tooManyMembers) := by
  simp only [StepTrackerApp.merge_groups, h1, h2, if_pos hcap]

theorem C2_merge_cap_atomicity_witness :
    StepTrackerApp.merge_groups
        ⟨[], [⟨"G1", "A", [1, 2, 3], 0, 0⟩, ⟨"G2", "B", [4, 5, 6], 0, 0⟩]⟩
        "G1" "G2" "X" 7 =
      (⟨[], [⟨"G1", "A", [1, 2, 3], 0, 0⟩, ⟨"G2", "B", [4, 5, 6], 0, 0⟩]⟩,
       some MergeErr.tooManyMembers) :=
  C2_merge_cap_atomicity _ _ _ _ _ ⟨"G1", "A", [1, 2, 3], 0, 0⟩ ⟨"G2", "B", [4, 5, 6], 0, 0⟩
    (by decide) (by decide) (by decide) (by decide)

/-- Claim C5 (amended): raw-count cap of create_group. In every state in
which no group with the requested id exists, a candidate list whose raw
length exceeds MAX_MEMBERS makes create_group fail with TooManyMembers and
return the state unchanged, regardless of what filtering would leave. (The
amendment: when a group with the requested id already exists, the duplicate
id is reported instead of the cap, still with no mutation.) -/
theorem C5_create_group_raw_cap (s : StepTrackerApp) (gid gname : String)
    (mids : List Int) (goal : Int)
    (hfresh : treeSearch groupKey gid.data s.groups = none)
    (hlen : Group.MAX_MEMBERS < mids.length) :
    s.create_group gid gname mids goal = (s, some CreateErr.tooManyMembers) := by
  simp only [StepTrackerApp.create_group, hfresh, if_pos hlen]

theorem C5_create_group_raw_cap_witness :
    StepTrackerApp.create_group ⟨[⟨1, "A", 20, 0, [], "", 0⟩], []⟩ "G" "N"
        [1, 1, 1, 1, 1, 1] 0 =
      (⟨[⟨1, "A", 20, 0, [], "", 0⟩], []⟩, some CreateErr.tooManyMembers) :=
  C5_create_group_raw_cap _ _ _ _ _ (by decide) (by decide)

/-- Claim C5, counterexample to the claim as stated: in a state that already
has a group with the requested id, an oversized candidate list is reported
as a duplicate group id, not as TooManyMembers. -/
theorem C5_counterexample :
    Group.MAX_MEMBERS < ([1, 2, 3, 4, 5, 6] : List Int).length ∧
    StepTrackerApp.create_group ⟨[], [⟨"G", "N", [], 0, 0⟩]⟩ "G" "N"
        [1, 2, 3, 4, 5, 6] 0 =
      (⟨[], [⟨"G", "N", [], 0, 0⟩]⟩, some CreateErr.alreadyExists) := by
  constructor
  · decide
  · decide

/-- Claim C6: merge success semantics. When two distinct groups exist and the
deduplicated union of their member ids is within the cap, merge_groups
succeeds; afterwards looking up the first group id yields exactly the new
group (carrying the new name, the new goal, and as members the deduplicated
union of the two previous member lists), looking up the second group id
reports nothing, and every individual whose id is in the union now has the
first group id as its current_group_id. -/
theorem C6_merge_success (s : StepTrackerApp) (gid1 gid2 name : String) (goal : Int)
    (g1 g2 : Group)
    (hs : StoreSorted groupKey s.groups)
    (h1 : treeSearch groupKey gid1.data s.groups = some g1)
    (h2 : treeSearch groupKey gid2.data s.groups = some g2)
    (hne : gid1 ≠ gid2)
    (hcap : (mkGroupMembers (g1.member_ids ++ g2.member_ids)).length ≤ Group.MAX_MEMBERS) :
    (s.merge_groups gid1 gid2 name goal).2 = none ∧
    treeSearch groupKey gid1.data (s.merge_groups gid1 gid2 name goal).1.groups =
      some (mkGroup gid1 name (mkGroupMembers (g1.member_ids ++ g2.member_ids)) goal) ∧
    (mkGroup gid1 name (mkGroupMembers (g1.member_ids ++ g2.member_ids)) goal).member_ids =
      mkGroupMembers (g1.member_ids ++ g2.member_ids) ∧
    (mkGroup gid1 name (mkGroupMembers (g1.member_ids ++ g2.member_ids)) goal).group_name =
      name ∧
    (mkGroup gid1 name (mkGroupMembers (g1.member_ids ++ g2.member_ids)) goal).weekly_group_goal =
      goal ∧
    treeSearch groupKey gid2.data (s.merge_groups gid1 gid2 name goal).1.groups = none ∧
    ∀ ind ∈ (s.merge_groups gid1 gid2 name goal).1.individuals,
      ind.id ∈ mkGroupMembers (g1.member_ids ++ g2.member_ids) →
        ind.current_group_id = gid1 := by
  obtain ⟨hmem2, hkey2⟩ := treeSearch_eq_some_mem s.groups hs h2
  have hndata : gid1.data ≠ gid2.data := fun h => hne (string_data_inj h)
  have hcapn : ¬ Group.MAX_MEMBERS <
      (mkGroupMembers (g1.member_ids ++ g2.member_ids)).length := not_lt.mpr hcap
  have hd1 := delete_group_found hs h1
  have hs1g : StoreSorted groupKey (treeRemove groupKey gid1.data s.groups).1 :=
    treeRemove_fst_sorted hs
  have hmem2' : g2 ∈ (treeRemove groupKey gid1.data s.groups).1 :=
    mem_treeRemove_fst.mpr ⟨hmem2, by rw [hkey2]; exact Ne.symm hndata⟩
  have h2' : treeSearch groupKey gid2.data
      ({ individuals := setGroupIds g1.member_ids "" s.individuals,
         groups := (treeRemove groupKey gid1.data s.groups).1 } : StepTrackerApp).groups =
      some g2 :=
    treeSearch_eq_some_of_mem_key hs1g hmem2' hkey2
  have hd2 := delete_group_found hs1g h2'
  have hs2g : StoreSorted groupKey
      (treeRemove groupKey gid2.data (treeRemove groupKey gid1.data s.groups).1).1 :=
    treeRemove_fst_sorted hs1g
  have hfresh : ∀ x ∈ (treeRemove groupKey gid2.data
        (treeRemove groupKey gid1.data s.groups).1).1,
      groupKey x ≠ groupKey (mkGroup gid1 name
        (mkGroupMembers (g1.member_ids ++ g2.member_ids)) goal) := by
    intro x hx
    exact (mem_treeRemove_fst.mp (mem_treeRemove_fst.mp hx).1).2
  have hmain : s.merge_groups gid1 gid2 name goal =
      ({ individuals := setGroupIds (mkGroupMembers (g1.member_ids ++ g2.member_ids)) gid1
           (setGroupIds g2.member_ids ""
             (setGroupIds g1.member_ids "" s.individuals)),
         groups := treeInsert groupKey
           (mkGroup gid1 name (mkGroupMembers (g1.member_ids ++ g2.member_ids)) goal)
           (treeRemove groupKey gid2.data (treeRemove groupKey gid1.data s.groups).1).1 },
       none) := by
    simp only [StepTrackerApp.merge_groups, h1, h2, if_neg hcapn, hd1, hd2]
    simp
  refine ⟨by rw [hmain], ?_, mkGroupMembers_idem _, rfl, rfl, ?_, ?_⟩
  · rw [hmain]
    exact treeSearch_eq_some_of_mem_key
      (StoreSorted_treeInsert _ hs2g hfresh)
      (self_mem_treeInsert _ hfresh) rfl
  · rw [hmain]
    refine treeSearch_eq_none_of_forall _ _ ?_
    intro x hx
    rcases mem_of_mem_treeInsert _ hx with rfl | hx'
    · exact hndata
    · exact (mem_treeRemove_fst.mp hx').2
  · rw [hmain]
    intro ind hind hmem
    obtain ⟨x, hx, hfx⟩ := mem_setGroupIds.mp hind
    by_cases hxm : x.id ∈ mkGroupMembers (g1.member_ids ++ g2.member_ids)
    · rw [if_pos hxm] at hfx
      rw [← hfx]
    · rw [if_neg hxm] at hfx
      rw [← hfx] at hmem
      exact absurd hmem hxm

theorem C6_merge_success_witness :
    (StepTrackerApp.merge_groups
        ⟨[⟨1, "A", 20, 0, [], "G1", 0⟩, ⟨2, "B", 20, 0, [], "G1", 0⟩,
          ⟨3, "C", 20, 0, [], "G2", 0⟩, ⟨4, "D", 20, 0, [], "G2", 0⟩],
         [⟨"G1", "One", [1, 2], 0, 0⟩, ⟨"G2", "Two", [3, 4], 0, 0⟩]⟩
        "G1" "G2" "Combined" 500).2 = none ∧
    treeSearch groupKey "G1".data
      (StepTrackerApp.merge_groups
        ⟨[⟨1, "A", 20, 0, [], "G1", 0⟩, ⟨2, "B", 20, 0, [], "G1", 0⟩,
          ⟨3, "C", 20, 0, [], "G2", 0⟩, ⟨4, "D", 20, 0, [], "G2", 0⟩],
         [⟨"G1", "One", [1, 2], 0, 0⟩, ⟨"G2", "Two", [3, 4], 0, 0⟩]⟩
        "G1" "G2" "Combined" 500).1.groups =
      some (mkGroup "G1" "Combined" (mkGroupMembers ([1, 2] ++ [3, 4])) 500) ∧
    (mkGroup "G1" "Combined" (mkGroupMembers ([1, 2] ++ [3, 4])) 500).member_ids =
      mkGroupMembers ([1, 2] ++ [3, 4]) ∧
    (mkGroup "G1" "Combined" (mkGroupMembers ([1, 2] ++ [3, 4])) 500).group_name =
      "Combined" ∧
    (mkGroup "G1" "Combined" (mkGroupMembers ([1, 2] ++ [3, 4])) 500).weekly_group_goal =
      500 ∧
    treeSearch groupKey "G2".data
      (StepTrackerApp.merge_groups
        ⟨[⟨1, "A", 20, 0, [], "G1", 0⟩, ⟨2, "B", 20, 0, [], "G1", 0⟩,
          ⟨3, "C", 20, 0, [], "G2", 0⟩, ⟨4, "D", 20, 0, [], "G2", 0⟩],
         [⟨"G1", "One", [1, 2], 0, 0⟩, ⟨"G2", "Two", [3, 4], 0, 0⟩]⟩
        "G1" "G2" "Combined" 500).1.groups = none ∧
    ∀ ind ∈ (StepTrackerApp.merge_groups
        ⟨[⟨1, "A", 20, 0, [], "G1", 0⟩, ⟨2, "B", 20, 0, [], "G1", 0⟩,
          ⟨3, "C", 20, 0, [], "G2", 0⟩, ⟨4, "D", 20, 0, [], "G2", 0⟩],
         [⟨"G1", "One", [1, 2], 0, 0⟩, ⟨"G2", "Two", [3, 4], 0, 0⟩]⟩
        "G1" "G2" "Combined" 500).1.individuals,
      ind.id ∈ mkGroupMembers ([1, 2] ++ [3, 4]) → ind.current_group_id = "G1" :=
  C6_merge_success
    ⟨[⟨1, "A", 20, 0, [], "G1", 0⟩, ⟨2, "B", 20, 0, [], "G1", 0⟩,
      ⟨3, "C", 20, 0, [], "G2", 0⟩, ⟨4, "D", 20, 0, [], "G2", 0⟩],
     [⟨"G1", "One", [1, 2], 0, 0⟩, ⟨"G2", "Two", [3, 4], 0, 0⟩]⟩
    "G1" "G2" "Combined" 500 ⟨"G1", "One", [1, 2], 0, 0⟩ ⟨"G2", "Two", [3, 4], 0, 0⟩
    (by decide) (by decide) (by decide) (by decide) (by decide)

/-- Claim C4: eligibility for the top-3 ranking. An individual from the store
is considered by get_top_3 exactly when its weekly_step_count is non-empty
and the last entry reaches its daily_step_goal; earlier entries play no role
and an empty weekly_step_count is never eligible. -/
theorem C4_eligibility (inds : List Individual) (ind : Individual) :
    ind ∈ eligibleList inds ↔
      ind ∈ inds ∧ ind.weekly_step_count ≠ [] ∧ ind.daily_step_goal ≤ lastSteps ind := by
  simp [eligibleList, isEligible, List.mem_filter, and_assoc]

theorem C4_eligibility_witness :
    (⟨7, "C", 30, 5000, [3000, 3000, 3000, 3000, 3000, 3000, 9000], "", 0⟩ : Individual) ∈
      eligibleList [⟨7, "C", 30, 5000, [3000, 3000, 3000, 3000, 3000, 3000, 9000], "", 0⟩] :=
  (C4_eligibility _ _).mpr (by decide)

/-- Claim C7 (amended): frame of check_group_achievement. The call never
touches the individuals store; every group record in the resulting state
agrees with a stored group on group_id, group_name, member_ids and
weekly_group_goal (only the derived total_weekly_steps cache may change);
and every group other than the target one is completely unchanged. The
original claim fails because the computed total is written into the stored
record of the target group. -/
theorem C7_check_group_frame (s : StepTrackerApp) (gid : String) (g' : Group)
    (hm : g' ∈ (s.check_group_achievement gid).1.groups) :
    (s.check_group_achievement gid).1.individuals = s.individuals ∧
    (∃ g ∈ s.groups, g'.group_id = g.group_id ∧ g'.group_name = g.group_name ∧
      g'.member_ids = g.member_ids ∧ g'.weekly_group_goal = g.weekly_group_goal) ∧
    (g'.group_id ≠ gid → g' ∈ s.groups) := by
  cases h : treeSearch groupKey gid.data s.groups with
  | none =>
    have he : s.check_group_achievement gid = (s, false) := by
      simp only [StepTrackerApp.check_group_achievement, h]
    rw [he] at hm ⊢
    exact ⟨rfl, ⟨g', hm, rfl, rfl, rfl, rfl⟩, fun _ => hm⟩
  | some g0 =>
    have he : s.check_group_achievement gid =
        ({ s with groups := s.groups.map fun g2 =>
            if g2.group_id = gid then { g2 with total_weekly_steps := groupTotalSteps s g0 }
            else g2 },
         decide (g0.weekly_group_goal ≤ groupTotalSteps s g0)) := by
      simp only [StepTrackerApp.check_group_achievement, h]
    rw [he] at hm ⊢
    have hm' : g' ∈ s.groups.map fun g2 =>
        if g2.group_id = gid then { g2 with total_weekly_steps := groupTotalSteps s g0 }
        else g2 := hm
    obtain ⟨x, hx, hfx⟩ := List.mem_map.mp hm'
    refine ⟨rfl, ?_, ?_⟩
    · refine ⟨x, hx, ?_⟩
      by_cases hxg : x.group_id = gid
      · rw [if_pos hxg] at hfx
        rw [← hfx]
        exact ⟨rfl, rfl, rfl, rfl⟩
      · rw [if_neg hxg] at hfx
        rw [← hfx]
        exact ⟨rfl, rfl, rfl, rfl⟩
    · intro hne
      by_cases hxg : x.group_id = gid
      · rw [if_pos hxg] at hfx
        exact absurd (by rw [← hfx]; exact hxg) hne
      · rw [if_neg hxg] at hfx
        rw [← hfx]
        exact hx

theorem C7_check_group_frame_witness :
    (StepTrackerApp.check_group_achievement
        ⟨[⟨1, "A", 20, 5, [10], "G", 0⟩], [⟨"G", "N", [1], 3, 0⟩]⟩ "G").1.individuals =
      [⟨1, "A", 20, 5, [10], "G", 0⟩] ∧
    (∃ g ∈ [(⟨"G", "N", [1], 3, 0⟩ : Group)],
      (⟨"G", "N", [1], 3, 10⟩ : Group).group_id = g.group_id ∧
      (⟨"G", "N", [1], 3, 10⟩ : Group).group_name = g.group_name ∧
      (⟨"G", "N", [1], 3, 10⟩ : Group).member_ids = g.member_ids ∧
      (⟨"G", "N", [1], 3, 10⟩ : Group).weekly_group_goal = g.weekly_group_goal) ∧
    ((⟨"G", "N", [1], 3, 10⟩ : Group).group_id ≠ "G" →
      (⟨"G", "N", [1], 3, 10⟩ : Group) ∈ [(⟨"G", "N", [1], 3, 0⟩ : Group)]) :=
  C7_check_group_frame ⟨[⟨1, "A", 20, 5, [10], "G", 0⟩], [⟨"G", "N", [1], 3, 0⟩]⟩ "G"
    ⟨"G", "N", [1], 3, 10⟩ (by decide)

/-- Claim C7, counterexample to the claim as stated: check_group_achievement
does mutate a stored Group record, writing the freshly computed total into
its total_weekly_steps field. -/
theorem C7_counterexample :
    (StepTrackerApp.check_group_achievement
        ⟨[⟨1, "A", 20, 5, [10], "G", 0⟩], [⟨"G", "N", [1], 3, 0⟩]⟩ "G").1.groups ≠
      [⟨"G", "N", [1], 3, 0⟩] := by
  decide

/-- Claim C10: self-merge of a group. Calling merge_groups with the same
existing group id on both sides fails (the second internal delete finds
nothing), yet the state has been mutated by the first internal delete: the
group record is gone, no group with that id remains, no new group was
created, and every previous member is ungrouped. -/
theorem C10_self_merge (s : StepTrackerApp) (gid name : String) (goal : Int) (g : Group)
    (hs : StoreSorted groupKey s.groups)
    (hg : treeSearch groupKey gid.data s.groups = some g)
    (hlen : g.member_ids.length ≤ Group.MAX_MEMBERS) :
    s.merge_groups gid gid name goal =
      ({ individuals := setGroupIds g.member_ids "" s.individuals,
         groups := (treeRemove groupKey gid.data s.groups).1 },
       some MergeErr.deleteFailed2) ∧
    treeSearch groupKey gid.data (s.merge_groups gid gid name goal).1.groups = none ∧
    ∀ ind ∈ (s.merge_groups gid gid name goal).1.individuals,
      ind.id ∈ g.member_ids → ind.current_group_id = "" := by
  have hsub : ∀ x ∈ mkGroupMembers (g.member_ids ++ g.member_ids), x ∈ g.member_ids := by
    intro x hx
    rcases List.mem_append.mp ((mem_mkGroupMembers _ x).mp hx) with h | h <;> exact h
  have hcap : ¬ Group.MAX_MEMBERS < (mkGroupMembers (g.member_ids ++ g.member_ids)).length :=
    not_lt.mpr (le_trans (length_le_of_nodup_subset (mkGroupMembers_nodup _) hsub) hlen)
  have hd1 := delete_group_found hs hg
  have hnone : treeSearch groupKey gid.data (treeRemove groupKey gid.data s.groups).1 = none := by
    refine treeSearch_eq_none_of_forall _ _ ?_
    intro x hx
    exact (mem_treeRemove_fst.mp hx).2
  have hd2 : StepTrackerApp.delete_group
      { individuals := setGroupIds g.member_ids "" s.individuals,
        groups := (treeRemove groupKey gid.data s.groups).1 } gid =
      ({ individuals := setGroupIds g.member_ids "" s.individuals,
         groups := (treeRemove groupKey gid.data s.groups).1 }, false) :=
    delete_group_not_found hnone
  have hmain : s.merge_groups gid gid name goal =
      ({ individuals := setGroupIds g.member_ids "" s.individuals,
         groups := (treeRemove groupKey gid.data s.groups).1 },
       some MergeErr.deleteFailed2) := by
    simp only [StepTrackerApp.merge_groups, hg, if_neg hcap, hd1, hd2]
    simp
  refine ⟨hmain, ?_, ?_⟩
  · rw [hmain]
    exact hnone
  · rw [hmain]
    intro ind hind hmem
    obtain ⟨x, hx, hfx⟩ := mem_setGroupIds.mp hind
    by_cases hxm : x.id ∈ g.member_ids
    · rw [if_pos hxm] at hfx
      rw [← hfx]
    · rw [if_neg hxm] at hfx
      rw [← hfx] at hmem
      exact absurd hmem hxm

/- The state check_individual_rewards produces when the individual exists
   and occurs in the used top-3 list. -/
theorem check_rewards_given_eq {s : StepTrackerApp} {iid : Int} {t3 : List Individual}
    {ind0 : Individual} {i : Nat}
    (hf : treeSearch Individual.id iid s.individuals = some ind0)
    (hi : t3.findIdx? (fun x => decide (x.id = iid)) = some i) :
    check_individual_rewards_given s iid t3 =
      { s with individuals := s.individuals.map fun ind =>
          if ind.id = iid then { ind with points := ind.points + rewardForRank i }
          else ind } := by
  simp only [check_individual_rewards_given, hf, hi]

/-- Claim C3 (amended): get_top_3 returns at most three individuals (exactly
min 3 of the eligible count), ordered by last-day steps descending, and they
are top: the output together with some rest of the eligible individuals is a
permutation of the eligible list, and everyone left out has last-day steps
not above anyone returned. The tie order of the original claim is not
guaranteed (see the counterexample): std::sort is not stable, so the
relative order of equal last-day counts is unspecified. -/
theorem C3_top3_order (s : StepTrackerApp) (out : List Individual)
    (h : get_top_3_rel s out) :
    out.length = min 3 (eligibleList s.individuals).length ∧
    sortedByStepsDesc out ∧
    ∃ rest, (out ++ rest).Perm (eligibleList s.individuals) ∧
      ∀ a ∈ out, ∀ b ∈ rest, lastSteps b ≤ lastSteps a := by
  obtain ⟨p, hperm, hsorted, hout⟩ := h
  subst hout
  refine ⟨?_, ?_, p.drop 3, ?_, ?_⟩
  · rw [List.length_take, ← hperm.length_eq]
  · exact List.Pairwise.sublist (List.take_sublist 3 p) hsorted
  · rw [List.take_append_drop]
    exact hperm.symm
  · intro a ha b hb
    have hp := hsorted
    rw [sortedByStepsDesc, ← List.take_append_drop 3 p, List.pairwise_append] at hp
    exact hp.2.2 a ha b hb

theorem C3_top3_order_witness :
    ([⟨2, "B", 20, 0, [7], "", 0⟩, ⟨1, "A", 20, 0, [5], "", 0⟩] : List Individual).length =
      min 3 (eligibleList [⟨1, "A", 20, 0, [5], "", 0⟩, ⟨2, "B", 20, 0, [7], "", 0⟩]).length ∧
    sortedByStepsDesc [⟨2, "B", 20, 0, [7], "", 0⟩, ⟨1, "A", 20, 0, [5], "", 0⟩] ∧
    ∃ rest, (([⟨2, "B", 20, 0, [7], "", 0⟩, ⟨1, "A", 20, 0, [5], "", 0⟩] : List Individual)
        ++ rest).Perm
        (eligibleList [⟨1, "A", 20, 0, [5], "", 0⟩, ⟨2, "B", 20, 0, [7], "", 0⟩]) ∧
      ∀ a ∈ ([⟨2, "B", 20, 0, [7], "", 0⟩, ⟨1, "A", 20, 0, [5], "", 0⟩] : List Individual),
        ∀ b ∈ rest, lastSteps b ≤ lastSteps a :=
  C3_top3_order ⟨[⟨1, "A", 20, 0, [5], "", 0⟩, ⟨2, "B", 20, 0, [7], "", 0⟩], []⟩
    [⟨2, "B", 20, 0, [7], "", 0⟩, ⟨1, "A", 20, 0, [5], "", 0⟩]
    ⟨[⟨2, "B", 20, 0, [7], "", 0⟩, ⟨1, "A", 20, 0, [5], "", 0⟩], by decide, by decide, rfl⟩

/-- Claim C3, counterexample to the claim as stated: the sort of get_top_3 is
std::sort, which guarantees no stability, so with two eligible individuals
tied on last-day steps an admissible output orders them opposite to their
store order; the tie-break-by-store-order (stable sort) part of the claim is
therefore not guaranteed by the code. -/
theorem C3_counterexample :
    get_top_3_rel ⟨[⟨1, "A", 20, 0, [5], "", 0⟩, ⟨2, "B", 20, 0, [5], "", 0⟩], []⟩
      [⟨2, "B", 20, 0, [5], "", 0⟩, ⟨1, "A", 20, 0, [5], "", 0⟩] ∧
    ¬ (∀ a b : Individual,
        [a, b].Sublist [⟨2, "B", 20, 0, [5], "", 0⟩, ⟨1, "A", 20, 0, [5], "", 0⟩] →
        lastSteps a = lastSteps b →
        [a, b].Sublist (eligibleList
          [⟨1, "A", 20, 0, [5], "", 0⟩, ⟨2, "B", 20, 0, [5], "", 0⟩])) := by
  constructor
  · exact ⟨[⟨2, "B", 20, 0, [5], "", 0⟩, ⟨1, "A", 20, 0, [5], "", 0⟩], by decide, by decide, rfl⟩
  · intro h
    have := h ⟨2, "B", 20, 0, [5], "", 0⟩ ⟨1, "A", 20, 0, [5], "", 0⟩ (by decide) (by decide)
    revert this
    decide

/-- Claim C8: reward accumulation of check_individual_rewards. The fixed rank
to points map is 100, 75, 50 for ranks 0, 1, 2; when the individual exists
and first occurs in the top-3 list at index i (necessarily below 3), the run
adds rewardForRank i to exactly that individual and changes nothing else; a
missing individual or one outside the top 3 changes nothing; and two
successive rank-0 invocations add 100 twice, for 200 in total. -/
theorem C8_reward_accumulation (s : StepTrackerApp) (iid : Int) (t3 : List Individual)
    (hsort : StoreSorted Individual.id s.individuals)
    (ht3 : get_top_3_rel s t3) :
    (rewardForRank 0 = 100 ∧ rewardForRank 1 = 75 ∧ rewardForRank 2 = 50) ∧
    (treeSearch Individual.id iid s.individuals = none →
      check_individual_rewards_given s iid t3 = s) ∧
    (t3.findIdx? (fun x => decide (x.id = iid)) = none →
      check_individual_rewards_given s iid t3 = s) ∧
    (∀ ind ∈ s.individuals, ind.id = iid →
      ∀ i, t3.findIdx? (fun x => decide (x.id = iid)) = some i →
        i < 3 ∧
        (check_individual_rewards_given s iid t3).groups = s.groups ∧
        (∀ ind' ∈ (check_individual_rewards_given s iid t3).individuals,
          (ind'.id = iid → ind'.points = ind.points + rewardForRank i) ∧
          (ind'.id ≠ iid → ind' ∈ s.individuals))) ∧
    (∀ ind ∈ s.individuals, ind.id = iid →
      t3.findIdx? (fun x => decide (x.id = iid)) = some 0 →
      ∀ t3', get_top_3_rel (check_individual_rewards_given s iid t3) t3' →
        t3'.findIdx? (fun x => decide (x.id = iid)) = some 0 →
        ∀ ind' ∈ (check_individual_rewards_given
            (check_individual_rewards_given s iid t3) iid t3').individuals,
          ind'.id = iid → ind'.points = ind.points + 200) := by
  obtain ⟨p, hperm, hsorted, hteq⟩ := ht3
  have ht3len : t3.length ≤ 3 := by
    rw [hteq]
    exact List.length_take_le _ _
  refine ⟨⟨rfl, rfl, rfl⟩, ?_, ?_, ?_, ?_⟩
  · intro hf
    simp only [check_individual_rewards_given, hf]
  · intro hnone
    cases hsearch : treeSearch Individual.id iid s.individuals with
    | none => simp only [check_individual_rewards_given, hsearch]
    | some ind0 => simp only [check_individual_rewards_given, hsearch, hnone]
  · intro ind hmem hid i hi
    have hf : treeSearch Individual.id iid s.individuals = some ind := by
      have h0 := treeSearch_eq_some_of_mem s.individuals hsort hmem
      rw [hid] at h0
      exact h0
    have he := check_rewards_given_eq hf hi
    obtain ⟨hlt, -, -⟩ := List.findIdx?_eq_some_iff_getElem.mp hi
    refine ⟨lt_of_lt_of_le hlt ht3len, by rw [he], ?_⟩
    rw [he]
    intro ind' hind'
    obtain ⟨x, hx, hfx⟩ := List.mem_map.mp hind'
    by_cases hxid : x.id = iid
    · rw [if_pos hxid] at hfx
      constructor
      · intro _
        have hxind : x = ind :=
          StoreSorted.key_unique s.individuals hsort hx hmem (by rw [hxid, hid])
        rw [← hfx, hxind]
      · intro hne
        rw [← hfx] at hne
        exact absurd hxid hne
    · rw [if_neg hxid] at hfx
      constructor
      · intro heq
        rw [← hfx] at heq
        exact absurd heq hxid
      · intro _
        rw [← hfx]
        exact hx
  · intro ind hmem hid h0 t3' ht3' h0' ind' hind' hid'
    have hf : treeSearch Individual.id iid s.individuals = some ind := by
      have hx0 := treeSearch_eq_some_of_mem s.individuals hsort hmem
      rw [hid] at hx0
      exact hx0
    have he1 := check_rewards_given_eq hf h0
    have hsort1 : StoreSorted Individual.id
        (check_individual_rewards_given s iid t3).individuals := by
      rw [he1]
      exact StoreSorted.map_of_key_eq
        (fun x => by by_cases h : x.id = iid <;> simp [h]) hsort
    have hmem1 : ({ ind with points := ind.points + rewardForRank 0 } : Individual) ∈
        (check_individual_rewards_given s iid t3).individuals := by
      rw [he1]
      refine List.mem_map.mpr ⟨ind, hmem, ?_⟩
      rw [if_pos hid]
    have hf1 : treeSearch Individual.id iid
        (check_individual_rewards_given s iid t3).individuals =
        some { ind with points := ind.points + rewardForRank 0 } :=
      treeSearch_eq_some_of_mem_key hsort1 hmem1 hid
    have he2 := check_rewards_given_eq hf1 h0'
    rw [he2] at hind'
    have hind'' : ind' ∈ (check_individual_rewards_given s iid t3).individuals.map
        fun x => if x.id = iid then { x with points := x.points + rewardForRank 0 } else x :=
      hind'
    obtain ⟨x, hx, hfx⟩ := List.mem_map.mp hind''
    rw [he1] at hx
    obtain ⟨y, hy, hfy⟩ := List.mem_map.mp hx
    by_cases hyid : y.id = iid
    · rw [if_pos hyid] at hfy
      have hxid : x.id = iid := by
        rw [← hfy]
        exact hyid
      rw [if_pos hxid] at hfx
      have hyind : y = ind :=
        StoreSorted.key_unique s.individuals hsort hy hmem (by rw [hyid, hid])
      rw [← hfx, ← hfy, hyind]
      show ind.points + rewardForRank 0 + rewardForRank 0 = ind.points + 200
      rw [rewardForRank]
      omega
    · rw [if_neg hyid] at hfy
      have hxid : ¬ x.id = iid := by
        rw [← hfy]
        exact hyid
      rw [if_neg hxid] at hfx
      rw [← hfx] at hid'
      exact absurd hid' hxid

theorem C8_reward_accumulation_witness :
    (⟨1, "A", 20, 0, [5], "", 200⟩ : Individual) ∈ (check_individual_rewards_given
        (check_individual_rewards_given ⟨[⟨1, "A", 20, 0, [5], "", 0⟩], []⟩ 1
          [⟨1, "A", 20, 0, [5], "", 0⟩])
        1 [⟨1, "A", 20, 0, [5], "", 100⟩]).individuals ∧
    (⟨1, "A", 20, 0, [5], "", 200⟩ : Individual).points = (0 : Int) + 200 :=
  ⟨by decide,
   (C8_reward_accumulation ⟨[⟨1, "A", 20, 0, [5], "", 0⟩], []⟩ 1
        [⟨1, "A", 20, 0, [5], "", 0⟩] (by decide)
        ⟨[⟨1, "A", 20, 0, [5], "", 0⟩], by decide, by decide, rfl⟩).2.2.2.2
      ⟨1, "A", 20, 0, [5], "", 0⟩ (by decide) rfl (by decide)
      [⟨1, "A", 20, 0, [5], "", 100⟩]
      ⟨[⟨1, "A", 20, 0, [5], "", 100⟩], by decide, by decide, rfl⟩ (by decide)
      ⟨1, "A", 20, 0, [5], "", 200⟩ (by decide) (by decide)⟩

theorem C10_self_merge_witness :
    StepTrackerApp.merge_groups ⟨[⟨1, "A", 20, 0, [], "G", 0⟩], [⟨"G", "N", [1], 9, 0⟩]⟩
        "G" "G" "X" 0 =
      ({ individuals := setGroupIds [1] "" [⟨1, "A", 20, 0, [], "G", 0⟩],
         groups := (treeRemove groupKey "G".data [⟨"G", "N", [1], 9, 0⟩]).1 },
       some MergeErr.deleteFailed2) ∧
    treeSearch groupKey "G".data
      (StepTrackerApp.merge_groups ⟨[⟨1, "A", 20, 0, [], "G", 0⟩], [⟨"G", "N", [1], 9, 0⟩]⟩
        "G" "G" "X" 0).1.groups = none ∧
    ∀ ind ∈ (StepTrackerApp.merge_groups ⟨[⟨1, "A", 20, 0, [], "G", 0⟩],
        [⟨"G", "N", [1], 9, 0⟩]⟩ "G" "G" "X" 0).1.individuals,
      ind.id ∈ [1] → ind.current_group_id = "" :=
  C10_self_merge ⟨[⟨1, "A", 20, 0, [], "G", 0⟩], [⟨"G", "N", [1], 9, 0⟩]⟩ "G" "X" 0
    ⟨"G", "N", [1], 9, 0⟩ (by decide) (by decide) (by decide)

/- ------------------------------------------------------------------ -/
/- Preservation of consistency by every public operation. -/

/- The shared final stage of create_group and merge_groups: insert a fresh
   group over a list of candidate ids that all name existing ungrouped
   individuals, and point those individuals at the new group. -/
theorem consistent_regroup {s : StepTrackerApp} (hc : Consistent s)
    (gid gname : String) (actual : List Int) (goal : Int)
    (hgid : gid ≠ "")
    (hfresh : treeSearch groupKey gid.data s.groups = none)
    (hlen : (mkGroupMembers actual).length ≤ Group.MAX_MEMBERS)
    (hmem : ∀ a ∈ actual, ∃ ind ∈ s.individuals, ind.id = a ∧ ind.current_group_id = "") :
    Consistent ⟨setGroupIds actual gid s.individuals,
      treeInsert groupKey (mkGroup gid gname actual goal) s.groups⟩ := by
  have hfreshk : ∀ x ∈ s.groups, groupKey x ≠ groupKey (mkGroup gid gname actual goal) :=
    (treeSearch_eq_none_iff hc.sortedGrps).mp hfresh
  refine ⟨setGroupIds_sorted hc.sortedInds,
          StoreSorted_treeInsert _ hc.sortedGrps hfreshk, ?_, ?_, ?_, ?_, ?_⟩
  · intro g hg
    rcases mem_of_mem_treeInsert _ hg with rfl | hg'
    · exact hgid
    · exact hc.gidsNonempty g hg'
  · intro g hg
    rcases mem_of_mem_treeInsert _ hg with rfl | hg'
    · exact mkGroupMembers_nodup actual
    · exact hc.membersNodup g hg'
  · intro g hg
    rcases mem_of_mem_treeInsert _ hg with rfl | hg'
    · exact hlen
    · exact hc.membersLen g hg'
  · intro g hg m hm
    rcases mem_of_mem_treeInsert _ hg with rfl | hg'
    · have hma : m ∈ actual := (mem_mkGroupMembers _ _).mp hm
      obtain ⟨ind, hind, hid, hcg⟩ := hmem m hma
      refine ⟨{ ind with current_group_id := gid }, ?_, hid, rfl⟩
      exact List.mem_map.mpr ⟨ind, hind, by rw [if_pos (by rw [hid]; exact hma)]⟩
    · obtain ⟨w, hw, hwid, hwcg⟩ := hc.link1 g hg' m hm
      have hnot : w.id ∉ actual := by
        intro hin
        obtain ⟨w2, hw2, hw2id, hw2cg⟩ := hmem w.id hin
        have hww : w2 = w :=
          StoreSorted.key_unique s.individuals hc.sortedInds hw2 hw hw2id
        rw [hww] at hw2cg
        exact hc.gidsNonempty g hg' (by rw [← hwcg, hw2cg])
      exact ⟨w, List.mem_map.mpr ⟨w, hw, by rw [if_neg hnot]⟩, hwid, hwcg⟩
  · intro ind' hind' hcg'
    obtain ⟨x, hx, hfx⟩ := mem_setGroupIds.mp hind'
    by_cases hxa : x.id ∈ actual
    · rw [if_pos hxa] at hfx
      refine ⟨mkGroup gid gname actual goal, self_mem_treeInsert _ hfreshk, ?_, ?_⟩
      · rw [← hfx]
        rfl
      · rw [← hfx]
        exact (mem_mkGroupMembers _ _).mpr hxa
    · rw [if_neg hxa] at hfx
      rw [← hfx] at hcg' ⊢
      obtain ⟨g, hg, hgid2, hgm⟩ := hc.link2 x hx hcg'
      exact ⟨g, subset_treeInsert _ _ _ hg, hgid2, hgm⟩

theorem consistent_add_person {s : StepTrackerApp} (hc : Consistent s)
    (id : Int) (name : String) (age goal : Int) (w : List Int) :
    Consistent (s.add_person id name age goal w).1 := by
  cases hse : treeSearch Individual.id id s.individuals with
  | some _ =>
    simp only [StepTrackerApp.add_person, hse]
    exact hc
  | none =>
    have hfresh : ∀ x ∈ s.individuals, x.id ≠ id :=
      (treeSearch_eq_none_iff hc.sortedInds).mp hse
    simp only [StepTrackerApp.add_person, hse]
    refine ⟨StoreSorted_treeInsert _ hc.sortedInds hfresh, hc.sortedGrps,
            hc.gidsNonempty, hc.membersNodup, hc.membersLen, ?_, ?_⟩
    · intro g hg m hm
      obtain ⟨w2, hw2, hid, hcg⟩ := hc.link1 g hg m hm
      exact ⟨w2, subset_treeInsert _ _ _ hw2, hid, hcg⟩
    · intro ind' hind' hcg
      rcases mem_of_mem_treeInsert _ hind' with rfl | h'
      · exact absurd rfl hcg
      · exact hc.link2 ind' h' hcg

theorem consistent_create_group {s : StepTrackerApp} (hc : Consistent s)
    (gid gname : String) (mids : List Int) (goal : Int) (hgid : gid ≠ "") :
    Consistent (s.create_group gid gname mids goal).1 := by
  cases hse : treeSearch groupKey gid.data s.groups with
  | some _ =>
    simp only [StepTrackerApp.create_group, hse]
    exact hc
  | none =>
    by_cases hlen : Group.MAX_MEMBERS < mids.length
    · simp only [StepTrackerApp.create_group, hse, if_pos hlen]
      exact hc
    · by_cases hemp : (mids.filter fun mid =>
          match treeSearch Individual.id mid s.individuals with
          | none => false
          | some ind => decide (ind.current_group_id = "")).isEmpty
      · simp only [StepTrackerApp.create_group, hse, if_neg hlen, if_pos hemp]
        exact hc
      · simp only [StepTrackerApp.create_group, hse, if_neg hlen, if_neg hemp]
        refine consistent_regroup hc gid gname _ goal hgid hse ?_ ?_
        · refine le_trans (mkGroupMembers_length_le _) ?_
          exact le_trans (List.length_filter_le _ _) (not_lt.mp hlen)
        · intro a ha
          have hpa := List.of_mem_filter ha
          cases hsa : treeSearch Individual.id a s.individuals with
          | none => rw [hsa] at hpa; simp at hpa
          | some ind =>
            rw [hsa] at hpa
            obtain ⟨hmem2, hkey2⟩ := treeSearch_eq_some_mem s.individuals hc.sortedInds hsa
            exact ⟨ind, hmem2, hkey2, by simpa using hpa⟩

theorem consistent_delete_individual {s : StepTrackerApp} (hc : Consistent s) (iid : Int) :
    Consistent (s.delete_individual iid).1 := by
  cases hse : treeSearch Individual.id iid s.individuals with
  | none =>
    simp only [StepTrackerApp.delete_individual, hse]
    exact hc
  | some ind =>
    obtain ⟨hmem, hkey⟩ := treeSearch_eq_some_mem s.individuals hc.sortedInds hse
    simp only [StepTrackerApp.delete_individual, hse]
    by_cases hcg : ind.current_group_id = ""
    · rw [if_neg (not_not_intro hcg)]
      refine ⟨treeRemove_fst_sorted hc.sortedInds, hc.sortedGrps, hc.gidsNonempty,
              hc.membersNodup, hc.membersLen, ?_, ?_⟩
      · intro g hg m hm
        obtain ⟨w, hw, hwid, hwcg⟩ := hc.link1 g hg m hm
        have hwneq : w.id ≠ iid := by
          intro he
          have hwi : w = ind :=
            StoreSorted.key_unique s.individuals hc.sortedInds hw hmem (he.trans hkey.symm)
          rw [hwi] at hwcg
          exact hc.gidsNonempty g hg (by rw [← hwcg, hcg])
        exact ⟨w, mem_treeRemove_fst.mpr ⟨hw, hwneq⟩, hwid, hwcg⟩
      · intro ind' hind' hcg'
        exact hc.link2 ind' (mem_treeRemove_fst.mp hind').1 hcg'
    · rw [if_pos hcg]
      refine ⟨treeRemove_fst_sorted hc.sortedInds,
              StoreSorted.map_of_key_eq ?_ hc.sortedGrps, ?_, ?_, ?_, ?_, ?_⟩
      · intro x
        by_cases h : x.group_id = ind.current_group_id <;> simp [h, groupKey]
      · intro g' hg'
        obtain ⟨x, hx, hfx⟩ := List.mem_map.mp hg'
        by_cases h : x.group_id = ind.current_group_id
        · rw [if_pos h] at hfx
          rw [← hfx]
          exact hc.gidsNonempty x hx
        · rw [if_neg h] at hfx
          rw [← hfx]
          exact hc.gidsNonempty x hx
      · intro g' hg'
        obtain ⟨x, hx, hfx⟩ := List.mem_map.mp hg'
        by_cases h : x.group_id = ind.current_group_id
        · rw [if_pos h] at hfx
          rw [← hfx]
          exact List.Nodup.filter _ (hc.membersNodup x hx)
        · rw [if_neg h] at hfx
          rw [← hfx]
          exact hc.membersNodup x hx
      · intro g' hg'
        obtain ⟨x, hx, hfx⟩ := List.mem_map.mp hg'
        by_cases h : x.group_id = ind.current_group_id
        · rw [if_pos h] at hfx
          rw [← hfx]
          exact le_trans (List.length_filter_le _ _) (hc.membersLen x hx)
        · rw [if_neg h] at hfx
          rw [← hfx]
          exact hc.membersLen x hx
      · intro g' hg' m hm
        obtain ⟨x, hx, hfx⟩ := List.mem_map.mp hg'
        by_cases h : x.group_id = ind.current_group_id
        · rw [if_pos h] at hfx
          rw [← hfx] at hm
          have hmx := List.mem_filter.mp hm
          obtain ⟨w, hw, hwid, hwcg⟩ := hc.link1 x hx m hmx.1
          have hwneq : w.id ≠ iid := by
            rw [hwid]
            simpa using hmx.2
          refine ⟨w, mem_treeRemove_fst.mpr ⟨hw, hwneq⟩, hwid, ?_⟩
          rw [← hfx]
          exact hwcg
        · rw [if_neg h] at hfx
          rw [← hfx] at hm ⊢
          obtain ⟨w, hw, hwid, hwcg⟩ := hc.link1 x hx m hm
          have hwneq : w.id ≠ iid := by
            intro he
            have hwi : w = ind :=
              StoreSorted.key_unique s.individuals hc.sortedInds hw hmem (he.trans hkey.symm)
            rw [hwi] at hwcg
            exact h hwcg.symm
          exact ⟨w, mem_treeRemove_fst.mpr ⟨hw, hwneq⟩, hwid, hwcg⟩
      · intro ind' hind' hcg'
        have h'' := mem_treeRemove_fst.mp hind'
        obtain ⟨G, hG, hGid, hGm⟩ := hc.link2 ind' h''.1 hcg'
        refine ⟨if G.group_id = ind.current_group_id then
            { G with member_ids := G.member_ids.filter fun m => decide (m ≠ iid) } else G,
          List.mem_map.mpr ⟨G, hG, rfl⟩, ?_, ?_⟩
        · by_cases hGg : G.group_id = ind.current_group_id
          · rw [if_pos hGg]
            exact hGid
          · rw [if_neg hGg]
            exact hGid
        · by_cases hGg : G.group_id = ind.current_group_id
          · rw [if_pos hGg]
            refine List.mem_filter.mpr ⟨hGm, ?_⟩
            simpa using h''.2
          · rw [if_neg hGg]
            exact hGm

theorem consistent_delete_group {s : StepTrackerApp} (hc : Consistent s) (gid : String) :
    Consistent (s.delete_group gid).1 := by
  cases hse : treeSearch groupKey gid.data s.groups with
  | none =>
    simp only [StepTrackerApp.delete_group, hse]
    exact hc
  | some g =>
    obtain ⟨hgmem, hgkey⟩ := treeSearch_eq_some_mem s.groups hc.sortedGrps hse
    simp only [StepTrackerApp.delete_group, hse]
    refine ⟨setGroupIds_sorted hc.sortedInds, treeRemove_fst_sorted hc.sortedGrps,
            ?_, ?_, ?_, ?_, ?_⟩
    · intro g' hg'
      exact hc.gidsNonempty g' (mem_treeRemove_fst.mp hg').1
    · intro g' hg'
      exact hc.membersNodup g' (mem_treeRemove_fst.mp hg').1
    · intro g' hg'
      exact hc.membersLen g' (mem_treeRemove_fst.mp hg').1
    · intro g' hg' m hm
      have hg'' := mem_treeRemove_fst.mp hg'
      obtain ⟨w, hw, hwid, hwcg⟩ := hc.link1 g' hg''.1 m hm
      have hnot : w.id ∉ g.member_ids := by
        intro hin
        obtain ⟨w2, hw2, hw2id, hw2cg⟩ := hc.link1 g hgmem w.id hin
        have hww : w2 = w :=
          StoreSorted.key_unique s.individuals hc.sortedInds hw2 hw hw2id
        rw [hww] at hw2cg
        have hgg : g'.group_id = g.group_id := by rw [← hwcg, hw2cg]
        exact hg''.2 (by rw [groupKey, hgg, ← hgkey, groupKey])
      exact ⟨w, List.mem_map.mpr ⟨w, hw, by rw [if_neg hnot]⟩, hwid, hwcg⟩
    · intro ind' hind' hcg'
      obtain ⟨x, hx, hfx⟩ := mem_setGroupIds.mp hind'
      by_cases hxm : x.id ∈ g.member_ids
      · rw [if_pos hxm] at hfx
        rw [← hfx] at hcg'
        exact absurd rfl hcg'
      · rw [if_neg hxm] at hfx
        rw [← hfx] at hcg' ⊢
        obtain ⟨G, hG, hGid, hGm⟩ := hc.link2 x hx hcg'
        have hGne : G ≠ g := by
          intro he
          rw [he] at hGm
          exact hxm hGm
        have hGkey : groupKey G ≠ gid.data := by
          intro he
          exact hGne
            (StoreSorted.key_unique s.groups hc.sortedGrps hG hgmem (he.trans hgkey.symm))
        exact ⟨G, mem_treeRemove_fst.mpr ⟨hG, hGkey⟩, hGid, hGm⟩

theorem consistent_merge_groups {s : StepTrackerApp} (hc : Consistent s)
    (gid1 gid2 name : String) (goal : Int) :
    Consistent (s.merge_groups gid1 gid2 name goal).1 := by
  cases h1 : treeSearch groupKey gid1.data s.groups with
  | none =>
    simp only [StepTrackerApp.merge_groups, h1]
    exact hc
  | some g1 =>
  cases h2 : treeSearch groupKey gid2.data s.groups with
  | none =>
    simp only [StepTrackerApp.merge_groups, h1, h2]
    exact hc
  | some g2 =>
  by_cases hcap : Group.MAX_MEMBERS < (mkGroupMembers (g1.member_ids ++ g2.member_ids)).length
  · simp only [StepTrackerApp.merge_groups, h1, h2, if_pos hcap]
    exact hc
  · obtain ⟨hg1mem, hg1key⟩ := treeSearch_eq_some_mem s.groups hc.sortedGrps h1
    obtain ⟨hg2mem, hg2key⟩ := treeSearch_eq_some_mem s.groups hc.sortedGrps h2
    have hd1 := delete_group_found hc.sortedGrps h1
    have hc1 : Consistent ({ individuals := setGroupIds g1.member_ids "" s.individuals,
                             groups := (treeRemove groupKey gid1.data s.groups).1 } :
        StepTrackerApp) := by
      have hp := consistent_delete_group hc gid1
      rw [hd1] at hp
      exact hp
    cases h2' : treeSearch groupKey gid2.data (treeRemove groupKey gid1.data s.groups).1 with
    | none =>
      have hd2 : StepTrackerApp.delete_group
          { individuals := setGroupIds g1.member_ids "" s.individuals,
            groups := (treeRemove groupKey gid1.data s.groups).1 } gid2 =
          ({ individuals := setGroupIds g1.member_ids "" s.individuals,
             groups := (treeRemove groupKey gid1.data s.groups).1 }, false) :=
        delete_group_not_found h2'
      simp only [StepTrackerApp.merge_groups, h1, h2, if_neg hcap, hd1, hd2]
      simp
      exact hc1
    | some g2' =>
      obtain ⟨hg2'memr, hg2'key⟩ :=
        treeSearch_eq_some_mem _ (treeRemove_fst_sorted hc.sortedGrps) h2'
      have hg2'mem : g2' ∈ s.groups := (mem_treeRemove_fst.mp hg2'memr).1
      have hg2'ne : groupKey g2' ≠ gid1.data := (mem_treeRemove_fst.mp hg2'memr).2
      have hg22 : g2' = g2 :=
        StoreSorted.key_unique s.groups hc.sortedGrps hg2'mem hg2mem
          (hg2'key.trans hg2key.symm)
      subst hg22
      have hnedata : gid1.data ≠ gid2.data := fun he => hg2'ne (hg2key.trans he.symm)
      have hd2 := delete_group_found hc1.sortedGrps h2'
      have hc2 : Consistent ({ individuals := setGroupIds g2'.member_ids ""
                                 (setGroupIds g1.member_ids "" s.individuals),
                               groups := (treeRemove groupKey gid2.data
                                 (treeRemove groupKey gid1.data s.groups).1).1 } :
        StepTrackerApp) := by
        have hp := consistent_delete_group hc1 gid2
        rw [hd2] at hp
        exact hp
      have hfresh2 : treeSearch groupKey gid1.data
          (treeRemove groupKey gid2.data (treeRemove groupKey gid1.data s.groups).1).1 =
          none := by
        refine treeSearch_eq_none_of_forall _ _ ?_
        intro x hx
        exact (mem_treeRemove_fst.mp (mem_treeRemove_fst.mp hx).1).2
      have hlen2 : (mkGroupMembers
          (mkGroupMembers (g1.member_ids ++ g2'.member_ids))).length ≤
          Group.MAX_MEMBERS := by
        rw [mkGroupMembers_idem]
        exact not_lt.mp hcap
      have hgid1ne : gid1 ≠ "" := by
        have hne1 := hc.gidsNonempty g1 hg1mem
        have heq : g1.group_id = gid1 := string_data_inj hg1key
        rw [heq] at hne1
        exact hne1
      have hmemok : ∀ a ∈ mkGroupMembers (g1.member_ids ++ g2'.member_ids),
          ∃ ind ∈ ({ individuals := setGroupIds g2'.member_ids ""
                       (setGroupIds g1.member_ids "" s.individuals),
                     groups := (treeRemove groupKey gid2.data
                       (treeRemove groupKey gid1.data s.groups).1).1 } :
              StepTrackerApp).individuals,
            ind.id = a ∧ ind.current_group_id = "" := by
        intro a ha
        rcases List.mem_append.mp ((mem_mkGroupMembers _ _).mp ha) with hA | hB
        · obtain ⟨w, hw, hwid, hwcg⟩ := hc.link1 g1 hg1mem a hA
          have hw1 : ({ w with current_group_id := "" } : Individual) ∈
              setGroupIds g1.member_ids "" s.individuals :=
            List.mem_map.mpr ⟨w, hw, by rw [if_pos (by rw [hwid]; exact hA)]⟩
          by_cases hin2 : ({ w with current_group_id := "" } : Individual).id ∈
              g2'.member_ids
          · exact ⟨{ w with current_group_id := "" },
              List.mem_map.mpr ⟨_, hw1, by rw [if_pos hin2]⟩, hwid, rfl⟩
          · exact ⟨{ w with current_group_id := "" },
              List.mem_map.mpr ⟨_, hw1, by rw [if_neg hin2]⟩, hwid, rfl⟩
        · obtain ⟨w, hw, hwid, hwcg⟩ := hc.link1 g2' hg2'mem a hB
          have hwnotg1 : w.id ∉ g1.member_ids := by
            intro hin
            obtain ⟨w2, hw2, hw2id, hw2cg⟩ := hc.link1 g1 hg1mem w.id hin
            have hww : w2 = w :=
              StoreSorted.key_unique s.individuals hc.sortedInds hw2 hw hw2id
            rw [hww] at hw2cg
            have hgg : g1.group_id = g2'.group_id := by rw [← hw2cg, hwcg]
            exact hnedata (by rw [← hg1key, ← hg2key, groupKey, groupKey, hgg])
          have hw1 : w ∈ setGroupIds g1.member_ids "" s.individuals :=
            List.mem_map.mpr ⟨w, hw, by rw [if_neg hwnotg1]⟩
          have hin2 : w.id ∈ g2'.member_ids := by
            rw [hwid]
            exact hB
          exact ⟨{ w with current_group_id := "" },
            List.mem_map.mpr ⟨w, hw1, by rw [if_pos hin2]⟩, hwid, rfl⟩
      have hreg := consistent_regroup hc2 gid1 name
        (mkGroupMembers (g1.member_ids ++ g2'.member_ids)) goal hgid1ne hfresh2 hlen2 hmemok
      simp only [StepTrackerApp.merge_groups, h1, h2, if_neg hcap, hd1, hd2]
      simp
      exact hreg

/- Consistency is preserved by every public operation, as long as
   create_group is never invoked with the empty string as the group id. -/
theorem consistent_applyOp {s : StepTrackerApp} (hc : Consistent s) (op : Op)
    (hop : op.usesNonemptyGroupId) : Consistent (applyOp s op) := by
  cases op with
  | addPerson i n a g w => exact consistent_add_person hc i n a g w
  | createGroup gid gn m w => exact consistent_create_group hc gid gn m w hop
  | deleteIndividual i => exact consistent_delete_individual hc i
  | deleteGroup gid => exact consistent_delete_group hc gid
  | mergeGroups g1 g2 n w => exact consistent_merge_groups hc g1 g2 n w

theorem consistent_run {s : StepTrackerApp} (hc : Consistent s) :
    ∀ (ops : List Op), (∀ op ∈ ops, op.usesNonemptyGroupId) → Consistent (run s ops)
  | [], _ => hc
  | op :: ops, hops => by
    have h1 : Consistent (applyOp s op) :=
      consistent_applyOp hc op (hops op (List.mem_cons_self op ops))
    have h2 := consistent_run h1 ops fun o ho => hops o (List.mem_cons_of_mem op ho)
    exact h2

/-- Claim C1 (amended): membership symmetry. Starting from any consistent
state, after any sequence of the public operations in which create_group is
never asked to use the empty string as a group id (that string encodes
"ungrouped" in current_group_id), the two membership links hold: every
member id of every stored group names an existing individual whose
current_group_id is that group id, and every individual with a non-empty
current_group_id names an existing group listing its id. The original,
unrestricted claim fails on sequences creating a group with the empty-string
id (see the counterexample). -/
theorem C1_membership_symmetry (s : StepTrackerApp) (ops : List Op)
    (hc : Consistent s) (hops : ∀ op ∈ ops, op.usesNonemptyGroupId) :
    groupsLinkIndividuals (run s ops) ∧ individualsLinkGroups (run s ops) :=
  ⟨(consistent_run hc ops hops).link1, (consistent_run hc ops hops).link2⟩

theorem C1_membership_symmetry_witness :
    groupsLinkIndividuals (run ⟨[], []⟩
      [Op.addPerson 1 "A" 20 0 [], Op.addPerson 2 "B" 25 0 [],
       Op.createGroup "G" "N" [1, 2] 7, Op.deleteIndividual 2]) ∧
    individualsLinkGroups (run ⟨[], []⟩
      [Op.addPerson 1 "A" 20 0 [], Op.addPerson 2 "B" 25 0 [],
       Op.createGroup "G" "N" [1, 2] 7, Op.deleteIndividual 2]) :=
  C1_membership_symmetry ⟨[], []⟩
    [Op.addPerson 1 "A" 20 0 [], Op.addPerson 2 "B" 25 0 [],
     Op.createGroup "G" "N" [1, 2] 7, Op.deleteIndividual 2]
    ⟨by decide, by decide, by decide, by decide, by decide, by decide, by decide⟩
    (by decide)

/-- Claim C1, counterexample to the claim as stated: add individual 1,
create a group whose group id is the empty string with member 1, then create
group G2 with candidate 1. Because the empty string also encodes
"ungrouped", individual 1 still passes the not-yet-grouped filter and is
regrouped into G2, while the empty-id group keeps 1 in its member list: in
the reached state that group has a member whose current_group_id differs
from the group id, violating invariant I1 of the claim. -/
theorem C1_counterexample :
    ¬ groupsLinkIndividuals (run ⟨[], []⟩
      [Op.addPerson 1 "A" 20 0 [],
       Op.createGroup "" "N" [1] 0,
       Op.createGroup "G2" "M" [1] 0]) := by
  decide

end StepTracker
